import Mathlib

/-!
# BOLD-Taxdump-Builder: verification of the TSV streaming parser and the
# taxonomy lineage resolver

Shallow embedding of the core of `boldkit/cmd/tsv_parser.go` and
`boldkit/cmd/taxdump.go`. Byte streams are `List Nat` (one `Nat` per byte;
`10` is the newline byte, `9` the tab byte, `13` the carriage return).
Go maps are embedded as association lists, goroutine nondeterminism as an
explicit arrival order of worker results, and Go map iteration order as an
explicit permutation parameter.
-/

namespace BoldKit

/-! ## Byte-level splitting (tsv_parser.go: readBatches, splitFields)

`splitOnB d s` splits a byte list at every occurrence of delimiter `d`,
returning the (always non-empty) list of segments between delimiters.
This is the common scanning loop of `readBatches` (delimiter `\n`, source
lines 256-268) and `splitFields` (delimiter `\t`, lines 471-479): both walk
the bytes, emit the segment `[start, i)` at each delimiter, and emit the
final segment `[start, len)` at the end (for `readBatches` this final
segment is the carried-over tail rather than an emitted record). -/
def splitOnB {α : Type} [DecidableEq α] (d : α) : List α → List (List α)
  | [] => [[]]
  | b :: rest =>
    if b = d then [] :: splitOnB d rest
    else (b :: (splitOnB d rest).headI) :: (splitOnB d rest).tail

/-- Joining segments back with the delimiter (specification-side inverse of
`splitOnB`, used to state the round-trip property). -/
def joinB {α : Type} (d : α) : List (List α) → List α
  | [] => []
  | [x] => x
  | x :: y :: xs => x ++ d :: joinB d (y :: xs)

/-- `splitFields` of tsv_parser.go lines 463-480: split one record on the tab
byte into its fields. The Go `expected` parameter only pre-sizes the slice
(an allocation hint), so it does not appear here. -/
def splitFields (line : List Nat) : List (List Nat) :=
  splitOnB 9 line

/-- The bytes after the last newline of `s` (the "tail" that `readBatches`
carries across chunk boundaries, and emits as a final record at EOF when
non-empty: tsv_parser.go lines 270-272 and 323-349). -/
def tailAfterLastNL (s : List Nat) : List Nat :=
  (splitOnB 10 s).getLastD []

/-- The records `readBatches` produces from the whole stream `s`: one record
per newline byte (the segment before it), plus the final unterminated tail
as one extra record when it is non-empty. -/
def records (s : List Nat) : List (List Nat) :=
  (splitOnB 10 s).dropLast ++
    (if tailAfterLastNL s = [] then [] else [tailAfterLastNL s])

/-- One iteration of the chunk loop of `readBatches` (tsv_parser.go lines
226-321): the carried tail is prepended to the newly read chunk, every
newline-terminated segment becomes a record, and the remainder becomes the
new tail. -/
def chunkStep (tail chunk : List Nat) : List (List Nat) × List Nat :=
  ((splitOnB 10 (tail ++ chunk)).dropLast, tailAfterLastNL (tail ++ chunk))

/-- `readBatches` as a function of the sequence of chunk reads: fold
`chunkStep` over the chunks and, at end-of-stream, emit the leftover tail as
one final record when non-empty (tsv_parser.go lines 323-349). -/
def readBatchesModel : List Nat → List (List Nat) → List (List Nat)
  | tail, [] => if tail = [] then [] else [tail]
  | tail, c :: cs =>
    (chunkStep tail c).1 ++ readBatchesModel (chunkStep tail c).2 cs

/-- CRLF trimming applied to a newline-terminated record when `AllowCRLF` is
set (tsv_parser.go lines 260-262). -/
def trimCR (line : List Nat) : List Nat :=
  if line.getLastD 0 = 13 then line.dropLast else line

/-! ### Lemmas about `splitOnB` / `joinB` -/

theorem splitOnB_ne_nil (d : Nat) (s : List Nat) : splitOnB d s ≠ [] := by
  cases s with
  | nil => simp [splitOnB]
  | cons b rest =>
    simp only [splitOnB]
    split
    · simp
    · simp

theorem joinB_singleton (d : Nat) (x : List Nat) : joinB d [x] = x := rfl

theorem joinB_cons_cons (d : Nat) (x y : List Nat) (xs : List (List Nat)) :
    joinB d (x :: y :: xs) = x ++ d :: joinB d (y :: xs) := rfl

/-- Re-joining the segments with the delimiter reproduces the input. -/
theorem joinB_splitOnB (d : Nat) (s : List Nat) : joinB d (splitOnB d s) = s := by
  induction s with
  | nil => simp [splitOnB, joinB]
  | cons b rest ih =>
    simp only [splitOnB]
    by_cases hb : b = d
    · rw [if_pos hb]
      cases hr : splitOnB d rest with
      | nil => exact absurd hr (splitOnB_ne_nil d rest)
      | cons y ys =>
        rw [joinB_cons_cons, ← hr, ih, hb]
        rfl
    · rw [if_neg hb]
      cases hr : splitOnB d rest with
      | nil => exact absurd hr (splitOnB_ne_nil d rest)
      | cons y ys =>
        simp only [List.headI, List.tail_cons]
        cases ys with
        | nil =>
          have h2 : y = rest := by rw [hr] at ih; simpa [joinB] using ih
          simp [joinB, h2]
        | cons z zs =>
          rw [joinB_cons_cons]
          have h2 : joinB d (y :: z :: zs) = rest := by rw [← hr]; exact ih
          rw [joinB_cons_cons] at h2
          simp [List.cons_append, ← h2]

/-- No segment produced by `splitOnB d` contains the delimiter. -/
theorem splitOnB_no_delim (d : Nat) (s : List Nat) :
    ∀ seg ∈ splitOnB d s, d ∉ seg := by
  induction s with
  | nil => intro seg h; simp [splitOnB] at h; simp [h]
  | cons b rest ih =>
    intro seg h
    simp only [splitOnB] at h
    by_cases hb : b = d
    · subst hb
      rw [if_pos rfl] at h
      rcases List.mem_cons.mp h with h | h
      · simp [h]
      · exact ih seg h
    · rw [if_neg hb] at h
      rcases List.mem_cons.mp h with h | h
      · subst h
        intro hmem
        rcases List.mem_cons.mp hmem with h1 | h1
        · exact hb h1.symm
        · cases hr : splitOnB d rest with
          | nil => exact absurd hr (splitOnB_ne_nil d rest)
          | cons y ys =>
            apply ih y (by rw [hr]; exact List.mem_cons_self y ys)
            rw [hr] at h1
            simpa [List.headI] using h1
      · cases hr : splitOnB d rest with
        | nil => exact absurd hr (splitOnB_ne_nil d rest)
        | cons y ys =>
          apply ih seg
          rw [hr]
          rw [hr] at h
          simp only [List.tail_cons] at h
          exact List.mem_cons_of_mem y h

/-- The number of segments is the number of delimiters plus one. -/
theorem splitOnB_length (d : Nat) (s : List Nat) :
    (splitOnB d s).length = s.count d + 1 := by
  induction s with
  | nil => simp [splitOnB]
  | cons b rest ih =>
    simp only [splitOnB]
    by_cases hb : b = d
    · simp [hb, List.count_cons, ih]
    · cases hr : splitOnB d rest with
      | nil => exact absurd hr (splitOnB_ne_nil d rest)
      | cons y ys =>
        simp only [if_neg hb, hr, List.length_cons, List.tail]
        rw [hr] at ih
        simp only [List.length_cons] at ih
        simp [List.count_cons, Ne.symm hb, hb, ih]

/-- How splitting distributes over append: the last segment of `a` merges with
the first segment of `s`. This is exactly the tail-carry discipline of
`readBatches`. -/
theorem splitOnB_append (d : Nat) (a s : List Nat) :
    splitOnB d (a ++ s) =
      (splitOnB d a).dropLast ++
        (((splitOnB d a).getLastD [] ++ (splitOnB d s).headI) :: (splitOnB d s).tail) := by
  induction a with
  | nil =>
    simp only [List.nil_append, splitOnB, List.dropLast_nil, List.getLastD_nil]
    cases hs : splitOnB d s with
    | nil => exact absurd hs (splitOnB_ne_nil d s)
    | cons y ys => simp
  | cons x xs ih =>
    simp only [List.cons_append, splitOnB, List.append_eq]
    by_cases hx : x = d
    · rw [if_pos hx, if_pos hx, ih]
      cases hA : splitOnB d xs with
      | nil => exact absurd hA (splitOnB_ne_nil d xs)
      | cons y ys =>
        rw [List.dropLast_cons₂, List.getLastD_cons]
        cases ys with
        | nil => simp
        | cons z zs =>
          simp only [List.getLastD_cons, List.cons_append]
    · rw [if_neg hx, if_neg hx, ih]
      cases hA : splitOnB d xs with
      | nil => exact absurd hA (splitOnB_ne_nil d xs)
      | cons y ys =>
        cases ys with
        | nil => simp
        | cons z zs =>
          simp only [List.headI, List.tail_cons, List.dropLast_cons₂, List.cons_append,
            List.getLastD_cons]

/-- A byte list without the delimiter is a single segment. -/
theorem splitOnB_of_not_mem (d : Nat) (s : List Nat) (h : d ∉ s) :
    splitOnB d s = [s] := by
  induction s with
  | nil => rfl
  | cons b rest ih =>
    have hb : b ≠ d := fun he => h (he ▸ List.mem_cons_self b rest)
    have hrest : d ∉ rest := fun hm => h (List.mem_cons_of_mem b hm)
    simp only [splitOnB, if_neg hb, ih hrest]
    rfl

/-- The tail carried by `readBatches` never contains a newline. -/
theorem tailAfterLastNL_no_nl (s : List Nat) : (10 : Nat) ∉ tailAfterLastNL s := by
  apply splitOnB_no_delim 10 s
  show (splitOnB 10 s).getLastD [] ∈ splitOnB 10 s
  cases hs : splitOnB 10 s with
  | nil => exact absurd hs (splitOnB_ne_nil 10 s)
  | cons y ys =>
    rw [List.getLastD_cons]
    exact List.getLastD_mem_cons ys y

/-- `s` with one final newline terminator stripped, if present (the byte the
round-trip property is allowed to lose). -/
def stripFinalNL (s : List Nat) : List Nat :=
  if s.getLastD 0 = 10 then s.dropLast else s

theorem dropLast_append_getLastD {α : Type} {A : List (List α)} (h : A ≠ []) :
    A.dropLast ++ [A.getLastD []] = A := by
  rw [List.getLastD_eq_getLast?, List.getLast?_eq_getLast A h]
  exact List.dropLast_append_getLast h

theorem joinB_cons_ne (d : Nat) (x : List Nat) {l : List (List Nat)} (h : l ≠ []) :
    joinB d (x :: l) = x ++ d :: joinB d l := by
  cases l with
  | nil => exact absurd rfl h
  | cons y ys => rfl

theorem joinB_append_last (d : Nat) (xs : List (List Nat)) (y w : List Nat) :
    joinB d (xs ++ [y ++ w]) = joinB d (xs ++ [y]) ++ w := by
  induction xs with
  | nil => simp [joinB]
  | cons x xs ih =>
    rw [List.cons_append, List.cons_append,
      joinB_cons_ne d x (by simp), joinB_cons_ne d x (by simp), ih]
    simp

/-- Splitting then re-joining loses exactly the final newline terminator:
the records `readBatches` produces, joined back with the newline byte, are
the input minus a trailing newline. -/
theorem joinB_records (s : List Nat) : joinB 10 (records s) = stripFinalNL s := by
  induction s using List.reverseRecOn with
  | nil => simp [records, tailAfterLastNL, splitOnB, joinB, stripFinalNL]
  | append_singleton t b ih =>
    have hsplit := splitOnB_append 10 t [b]
    by_cases hb : b = 10
    · subst hb
      have h1 : splitOnB 10 (t ++ [10]) = (splitOnB 10 t).dropLast ++
          [(splitOnB 10 t).getLastD [], []] := by
        rw [hsplit]; simp [splitOnB]
      have h2 : records (t ++ [10]) = splitOnB 10 t := by
        unfold records tailAfterLastNL
        rw [h1]
        have hA := splitOnB_ne_nil 10 t
        have : ((splitOnB 10 t).dropLast ++ [(splitOnB 10 t).getLastD [], []]).getLastD []
            = ([] : List Nat) := by
          rw [List.getLastD_eq_getLast?, List.getLast?_append_of_ne_nil _ (by simp)]
          simp
        rw [this]
        have : (splitOnB 10 t).dropLast ++ [(splitOnB 10 t).getLastD [], []]
            = ((splitOnB 10 t).dropLast ++ [(splitOnB 10 t).getLastD []]) ++ [[]] := by
          simp
        rw [this, List.dropLast_concat, dropLast_append_getLastD hA]
        simp
      rw [h2, joinB_splitOnB]
      unfold stripFinalNL
      rw [if_pos (by simp), List.dropLast_concat]
    · have h1 : splitOnB 10 (t ++ [b]) = (splitOnB 10 t).dropLast ++
          [(splitOnB 10 t).getLastD [] ++ [b]] := by
        rw [hsplit]
        simp [splitOnB, if_neg hb]
      have h2 : records (t ++ [b]) = (splitOnB 10 t).dropLast ++
          [(splitOnB 10 t).getLastD [] ++ [b]] := by
        unfold records tailAfterLastNL
        rw [h1]
        have : ((splitOnB 10 t).dropLast ++ [(splitOnB 10 t).getLastD [] ++ [b]]).getLastD []
            = (splitOnB 10 t).getLastD [] ++ [b] := by
          rw [List.getLastD_eq_getLast?, List.getLast?_append_of_ne_nil _ (by simp)]
          simp
        rw [this]
        rw [if_neg (by simp)]
        simp [List.dropLast_concat]
      rw [h2, joinB_append_last 10 _ _ [b], dropLast_append_getLastD (splitOnB_ne_nil 10 t),
        joinB_splitOnB]
      unfold stripFinalNL
      rw [if_neg (by simp [hb])]

/-- The record count is the newline count plus one for a non-empty
unterminated tail. -/
theorem records_length (s : List Nat) :
    (records s).length = s.count 10 + (if tailAfterLastNL s = [] then 0 else 1) := by
  unfold records
  have h1 : (splitOnB 10 s).dropLast.length = s.count 10 := by
    rw [List.length_dropLast, splitOnB_length]
    simp
  by_cases h : tailAfterLastNL s = []
  · simp [h, h1]
  · simp [h, h1]

/-- Tail-carry across an append boundary: splitting `u ++ v` is splitting
`u`, keeping its unterminated tail, and splitting that tail glued onto `v`. -/
theorem splitOnB_tail_carry (u v : List Nat) :
    splitOnB 10 (u ++ v) =
      (splitOnB 10 u).dropLast ++ splitOnB 10 (tailAfterLastNL u ++ v) := by
  rw [splitOnB_append 10 u v, splitOnB_append 10 (tailAfterLastNL u) v,
    splitOnB_of_not_mem 10 (tailAfterLastNL u) (tailAfterLastNL_no_nl u)]
  simp [tailAfterLastNL]

theorem records_append_tail (u v : List Nat) :
    records (u ++ v) = (splitOnB 10 u).dropLast ++ records (tailAfterLastNL u ++ v) := by
  unfold records
  have hne := splitOnB_ne_nil 10 (tailAfterLastNL u ++ v)
  have h1 : tailAfterLastNL (u ++ v) = tailAfterLastNL (tailAfterLastNL u ++ v) := by
    unfold tailAfterLastNL
    rw [splitOnB_tail_carry u v, List.getLastD_eq_getLast?, List.getLastD_eq_getLast?,
      List.getLast?_append_of_ne_nil _ hne]
    rfl
  rw [h1, splitOnB_tail_carry u v, List.dropLast_append_of_ne_nil _ hne]
  simp

/-- `readBatches` over any sequence of chunk reads produces exactly the
records of the concatenated stream: chunk boundaries are invisible. -/
theorem readBatchesModel_eq (cs : List (List Nat)) (tail : List Nat)
    (h : (10 : Nat) ∉ tail) :
    readBatchesModel tail cs = records (tail ++ cs.flatten) := by
  induction cs generalizing tail with
  | nil =>
    simp only [readBatchesModel, List.flatten_nil, List.append_nil]
    unfold records tailAfterLastNL
    rw [splitOnB_of_not_mem 10 tail h]
    by_cases ht : tail = [] <;> simp [ht]
  | cons c cs ih =>
    simp only [readBatchesModel, chunkStep, List.flatten_cons]
    rw [ih (tailAfterLastNL (tail ++ c)) (tailAfterLastNL_no_nl (tail ++ c)),
      ← List.append_assoc, records_append_tail (tail ++ c) cs.flatten]

/-! ## Association lists (embedding of Go maps) -/

/-- First-match lookup in an association list (embeds Go map lookup; keys are
kept unique by `insertA`). -/
def lookupA {κ α : Type} [DecidableEq κ] (k : κ) : List (κ × α) → Option α
  | [] => none
  | (k', v) :: rest => if k' = k then some v else lookupA k rest

/-- Insert with overwrite (embeds Go map assignment `m[k] = v`). -/
def insertA {κ α : Type} [DecidableEq κ] (k : κ) (v : α) : List (κ × α) → List (κ × α)
  | [] => [(k, v)]
  | (k', v') :: rest => if k' = k then (k, v) :: rest else (k', v') :: insertA k v rest

theorem lookupA_insertA {κ α : Type} [DecidableEq κ] (k id : κ) (v : α)
    (l : List (κ × α)) :
    lookupA id (insertA k v l) = if k = id then some v else lookupA id l := by
  induction l with
  | nil => simp [insertA, lookupA]
  | cons p rest ih =>
    obtain ⟨k', v'⟩ := p
    simp only [insertA]
    by_cases hk : k' = k
    · subst hk
      rw [if_pos rfl]
      by_cases hid : k' = id
      · subst hid; simp [lookupA]
      · simp [lookupA, hid]
    · rw [if_neg hk]
      by_cases hid : k' = id
      · subst hid
        have : ¬k = k' := fun he => hk he.symm
        simp [lookupA, this]
      · simp [lookupA, hid, ih]

/-! ## Taxonomy lineage resolver (taxdump.go)

File paths, `bufio.Scanner` and I/O errors are outside the embedding: the
load functions are modelled as functions of the list of text lines of the
input file. The memoization cache of `taxDump` is not modelled: it only
re-serves previously computed mappings and the claims are about the computed
mapping itself. -/

/-- taxdump.go lines 11-15. -/
structure taxNode where
  parent : Int
  rank : String
  name : String
deriving DecidableEq

/-- taxdump.go lines 17-21 (without the memoization cache). `rankAlias` is the
`alias` field, fixed at load time to `superkingdom → kingdom`
(taxdump.go lines 35-37). -/
structure taxDump where
  nodes : List (Int × taxNode)
  rankAlias : List (String × String)
deriving DecidableEq

/-- The alias table `loadTaxDump` installs (taxdump.go lines 35-37). -/
def mkTaxDump (nodes : List (Int × taxNode)) : taxDump :=
  ⟨nodes, [("superkingdom", "kingdom")]⟩

/-- Drop leading whitespace (the one-sided half of Go's
`strings.TrimSpace`). -/
def trimLeftC : List Char → List Char
  | [] => []
  | c :: rest => if c.isWhitespace then trimLeftC rest else c :: rest

/-- Go's `strings.TrimSpace` over the characters of a field: drop leading and
trailing whitespace. -/
def trimSpaceC (s : List Char) : List Char :=
  (trimLeftC (trimLeftC s.reverse).reverse)

/-- All-digit run parsed as a number; `none` when empty or a non-digit
appears. -/
def digitsVal (l : List Char) : Option Nat :=
  if l = [] then none
  else if l.all Char.isDigit then
    some (l.foldl (fun acc c => acc * 10 + (c.toNat - 48)) 0)
  else none

/-- Go's `strconv.Atoi`: optional sign, then at least one digit, nothing
else. (Overflow of int64 is not modelled; taxonomy identifiers are far below
it.) -/
def atoiC (s : List Char) : Option Int :=
  match s with
  | [] => none
  | '+' :: rest => (digitsVal rest).map Int.ofNat
  | '-' :: rest => (digitsVal rest).map (fun n => -(Int.ofNat n))
  | l => (digitsVal l).map Int.ofNat

/-- taxdump.go lines 116-126: split a dump line (given as its characters) on
`|`, trim each field, and skip leading all-empty fields (the
`field != "" || len(out) > 0` condition). -/
def parseDmpLine (line : List Char) : List (List Char) :=
  (splitOnB '|' line).foldl
    (fun out part =>
      let field := trimSpaceC part
      if field ≠ [] ∨ out ≠ [] then out ++ [field] else out)
    []

/-- The body of the scan loop of `loadNames` (taxdump.go lines 54-70): keep a
row only when its fourth field is `scientific name`, its first field parses
as an integer, and its second field is non-empty; `names[id] = fields[1]` is
a Go map assignment, i.e. an overwrite. -/
def loadNamesStep (names : List (Int × String)) (line : List Char) : List (Int × String) :=
  let fields := parseDmpLine line
  if fields.length < 4 then names
  else if fields.getD 3 [] ≠ "scientific name".toList then names
  else
    match atoiC (fields.getD 0 []) with
    | none => names
    | some id =>
      if fields.getD 1 [] = [] then names
      else insertA id (String.mk (fields.getD 1 [])) names

/-- taxdump.go lines 41-75, as a function of the scanned lines of
names.dmp. -/
def loadNames (lines : List (List Char)) : List (Int × String) :=
  lines.foldl loadNamesStep []

/-- taxdump.go lines 77-114: build the node table, resolving each node's name
through the names table (`""` when absent, since Go's `names[id]` yields the
zero value). -/
def loadNodes (lines : List (List Char)) (names : List (Int × String)) :
    List (Int × taxNode) :=
  lines.foldl
    (fun nodes line =>
      let fields := parseDmpLine line
      if fields.length < 3 then nodes
      else
        match atoiC (fields.getD 0 []), atoiC (fields.getD 1 []) with
        | some id, some parent =>
            insertA id
              ⟨parent, String.mk (fields.getD 2 []), (lookupA id names).getD ""⟩ nodes
        | _, _ => nodes)
    []

/-- The contribution of one names.dmp row: `some (id, name)` when the row is
a well-formed `scientific name` row, `none` when `loadNames` skips it. -/
def namesRowEntry (line : List Char) : Option (Int × String) :=
  let fields := parseDmpLine line
  if fields.length < 4 then none
  else if fields.getD 3 [] ≠ "scientific name".toList then none
  else
    match atoiC (fields.getD 0 []) with
    | none => none
    | some id =>
      if fields.getD 1 [] = [] then none
      else some (id, String.mk (fields.getD 1 []))

/-- The name carried by the last valid `scientific name` row for `id` in
file order (the specification-side description of which duplicate wins). -/
def lastScientificName (lines : List (List Char)) (id : Int) : Option String :=
  lines.foldl
    (fun acc line =>
      match namesRowEntry line with
      | some (i, n) => if i = id then some n else acc
      | none => acc)
    none

theorem loadNamesStep_eq (names : List (Int × String)) (line : List Char) :
    loadNamesStep names line
    = match namesRowEntry line with
      | some (i, n) => insertA i n names
      | none => names := by
  simp only [loadNamesStep, namesRowEntry]
  generalize parseDmpLine line = fs
  by_cases h1 : fs.length < 4
  · rw [if_pos h1, if_pos h1]
  · rw [if_neg h1, if_neg h1]
    by_cases h2 : fs.getD 3 [] ≠ "scientific name".toList
    · rw [if_pos h2, if_pos h2]
    · rw [if_neg h2, if_neg h2]
      cases atoiC (fs.getD 0 []) with
      | none => rfl
      | some id =>
        dsimp only
        by_cases h3 : fs.getD 1 [] = []
        · rw [if_pos h3, if_pos h3]
        · rw [if_neg h3, if_neg h3]

/-- `loadNames` resolves each identifier to the name of the LAST valid
scientific-name row for it (Go map assignment overwrites). -/
theorem loadNames_lookup (lines : List (List Char)) (id : Int) :
    lookupA id (loadNames lines) = lastScientificName lines id := by
  suffices h : ∀ names : List (Int × String),
      lookupA id (lines.foldl loadNamesStep names)
      = lines.foldl
          (fun acc line =>
            match namesRowEntry line with
            | some (i, n) => if i = id then some n else acc
            | none => acc)
          (lookupA id names) by
    exact h []
  induction lines with
  | nil => intro names; rfl
  | cons l ls ih =>
    intro names
    rw [List.foldl_cons, List.foldl_cons, loadNamesStep_eq names l]
    cases he : namesRowEntry l with
    | none => exact ih names
    | some p =>
      obtain ⟨i, n⟩ := p
      rw [ih (insertA i n names), lookupA_insertA]

/-- The loop body of `lineage` (taxdump.go lines 138-157): `fuel` is the
remaining hop budget (`64 - seen`), `cur` the current identifier, `acc` the
rank → name mapping accumulated so far (append-only, so earlier = closer
ancestor wins). -/
def lineageWalk (t : taxDump) : Nat → Int → List (String × String) → List (String × String)
  | 0, _, acc => acc
  | fuel + 1, cur, acc =>
    if cur ≤ 0 then acc
    else
      match lookupA cur t.nodes with
      | none => acc
      | some node =>
        let rank := match lookupA node.rank t.rankAlias with
          | some a => a
          | none => node.rank
        let acc' :=
          if rank ≠ "" ∧ rank ≠ "no rank" ∧ node.name ≠ "" ∧ lookupA rank acc = none
          then acc ++ [(rank, node.name)] else acc
        if node.parent = cur then acc'
        else lineageWalk t fuel node.parent acc'

/-- taxdump.go lines 128-160 (`func (t *taxDump) lineage`), without the
memoization cache. -/
def lineage (t : taxDump) (taxid : Int) : List (String × String) :=
  if taxid ≤ 0 then [] else lineageWalk t 64 taxid []

/-- Modelled from the spec's description of the query: the chain of nodes
visited by walking the parent pointers from `cur`, stopping at a missing
node, a self-parent node, a non-positive identifier, or the hop cap. -/
def visitedChain (t : taxDump) : Nat → Int → List taxNode
  | 0, _ => []
  | fuel + 1, cur =>
    if cur ≤ 0 then []
    else
      match lookupA cur t.nodes with
      | none => []
      | some node =>
        node :: (if node.parent = cur then [] else visitedChain t fuel node.parent)

/-- Modelled from the spec, lineage recording at one visited node: map the
rank through the alias table and record it under the aliased rank if the rank
is non-empty, not `no rank`, the name resolved, and no closer ancestor
already recorded that rank. -/
def recordStep (t : taxDump) (acc : List (String × String)) (node : taxNode) :
    List (String × String) :=
  let rank := match lookupA node.rank t.rankAlias with
    | some a => a
    | none => node.rank
  if rank ≠ "" ∧ rank ≠ "no rank" ∧ node.name ≠ "" ∧ lookupA rank acc = none
  then acc ++ [(rank, node.name)] else acc

/-- The spec's formulation of the query: fold the recording rule over the
visited parent chain (closest node first), with non-positive identifiers
mapped to nothing. -/
def lineageSpec (t : taxDump) (taxid : Int) : List (String × String) :=
  if taxid ≤ 0 then [] else (visitedChain t 64 taxid).foldl (recordStep t) []

theorem lineageWalk_eq_foldl (t : taxDump) (fuel : Nat) :
    ∀ (cur : Int) (acc : List (String × String)),
      lineageWalk t fuel cur acc = (visitedChain t fuel cur).foldl (recordStep t) acc := by
  induction fuel with
  | zero => intro cur acc; rfl
  | succ fuel ih =>
    intro cur acc
    simp only [lineageWalk, visitedChain]
    by_cases hc : cur ≤ 0
    · simp [hc]
    · rw [if_neg hc, if_neg hc]
      cases lookupA cur t.nodes with
      | none => rfl
      | some node =>
        simp only [List.foldl_cons]
        by_cases hp : node.parent = cur
        · simp [hp, recordStep]
        · simp only [if_neg hp, ih]
          rfl

/-- The walk visits at most `fuel` nodes. -/
theorem visitedChain_length_le (t : taxDump) (fuel : Nat) :
    ∀ cur : Int, (visitedChain t fuel cur).length ≤ fuel := by
  induction fuel with
  | zero => intro cur; simp [visitedChain]
  | succ fuel ih =>
    intro cur
    simp only [visitedChain]
    by_cases hc : cur ≤ 0
    · simp [hc]
    · rw [if_neg hc]
      cases lookupA cur t.nodes with
      | none => simp
      | some node =>
        by_cases hp : node.parent = cur
        · simp [hp]
        · simp only [if_neg hp, List.length_cons]
          exact Nat.succ_le_succ (ih node.parent)

/-! ## Rows, worker results and the ordered reassembler (tsv_parser.go)

Goroutine scheduling is embedded as the explicit arrival order of worker
results at the reassembler, and Go map iteration order (used by the
end-of-stream flush) as an explicit list of the map's entries. The context
is modelled as never cancelled from outside (`ctx.Err()` = nil inside
`processResult`): the claims below either assume no cancellation or concern
paths where cancellation originates from an error captured in the state. -/

/-- tsv_parser.go lines 37-40. Field data is the byte views produced by
`splitFields`; `Line` is the 1-based line number (int64, no overflow
modelled). -/
structure Row where
  line : Int
  fields : List (List Nat)
deriving DecidableEq

/-- Pipeline errors of `consumeResults`: a strict-column mismatch
(`fmt.Errorf("line %d: expected %d columns, got %d", ...)`, line 398),
an error returned by the caller's row callback (line 408), or an error
attached to a worker result (line 381). -/
inductive PErr where
  | strict (line : Int) (expected got : Nat)
  | callback (code : Nat)
  | fromResult (code : Nat)
deriving DecidableEq

/-- tsv_parser.go lines 72-77. `buf` identifies the `bufferRef` the result
must release; `err` is the worker-attached error. -/
structure parseResultM where
  seq : Nat
  rows : List Row
  err : Option Nat
  buf : Nat
deriving DecidableEq

/-- The row loop inside `processResult` (tsv_parser.go lines 389-412):
strict-column checking (first row's count becomes the expected count when it
was 0), then the `onRow` callback; the loop breaks at the first error, the
violating row not being passed to the callback. Returns (rows passed to
`onRow`, final expectedColumns, error). The progress counter (lines
402-407) has no claim about it and is omitted. -/
def processRows (strict : Bool) (onRow : Row → Option Nat) :
    List Row → Nat → List Row × Nat × Option PErr
  | [], cols => ([], cols, none)
  | r :: rest, cols =>
    if strict ∧ cols ≠ 0 ∧ r.fields.length ≠ cols then
      ([], cols, some (.strict r.line cols r.fields.length))
    else
      let cols' := if strict ∧ cols = 0 then r.fields.length else cols
      match onRow r with
      | some e => ([r], cols', some (.callback e))
      | none =>
        let res := processRows strict onRow rest cols'
        (r :: res.1, res.2.1, res.2.2)

/-- The state of `consumeResults` (tsv_parser.go lines 372-377), plus the
observable history: `delivered` is the sequence of rows passed to `onRow`
and `released` the sequence of `buf.release()` calls. -/
structure CState where
  expected : Nat
  pending : List (Nat × parseResultM)
  err : Option PErr
  cols : Nat
  delivered : List Row
  released : List Nat
deriving DecidableEq

/-- The `processResult` closure (tsv_parser.go lines 379-417): an already
recorded error, or a result-attached error, releases the buffer without
delivering; otherwise the rows are processed and the buffer released. -/
def processResultM (strict : Bool) (onRow : Row → Option Nat)
    (s : CState) (r : parseResultM) : CState :=
  match s.err with
  | some _ => { s with released := s.released ++ [r.buf] }
  | none =>
    match r.err with
    | some e => { s with err := some (.fromResult e), released := s.released ++ [r.buf] }
    | none =>
      let res := processRows strict onRow r.rows s.cols
      { s with cols := res.2.1, err := res.2.2,
               delivered := s.delivered ++ res.1,
               released := s.released ++ [r.buf] }

/-- `next, ok := pending[expectedSeq]` combined with
`delete(pending, expectedSeq)` (tsv_parser.go lines 428-432) on the
association-list embedding of the Go map. -/
def lookupRemove (k : Nat) :
    List (Nat × parseResultM) → Option (parseResultM × List (Nat × parseResultM))
  | [] => none
  | (k', v) :: rest =>
    if k' = k then some (v, rest)
    else
      match lookupRemove k rest with
      | some (v', rest') => some (v', (k', v) :: rest')
      | none => none

/-- The drain loop of ordered mode (tsv_parser.go lines 427-438): repeatedly
deliver the expected sequence number from the holding map, stopping at a gap
or at the first error; `fuel` bounds the iterations (the loop removes one
holding-map entry per iteration, so `pending.length` suffices). -/
def drain (strict : Bool) (onRow : Row → Option Nat) :
    Nat → CState → CState
  | 0, s => s
  | fuel + 1, s =>
    match lookupRemove s.expected s.pending with
    | none => s
    | some (res, pending') =>
      let s' := processResultM strict onRow { s with pending := pending' } res
      let s'' := { s' with expected := s'.expected + 1 }
      if s''.err.isSome then s'' else drain strict onRow fuel s''

/-- One arriving result in the ordered-mode receive loop (tsv_parser.go
lines 420-439): after an error, results are only released; otherwise the
result is parked in the holding map and the drain loop runs. -/
def stepArrival (strict : Bool) (onRow : Row → Option Nat)
    (s : CState) (r : parseResultM) : CState :=
  if s.err.isSome then { s with released := s.released ++ [r.buf] }
  else
    let p' := insertA r.seq r s.pending
    drain strict onRow p'.length { s with pending := p' }

/-- The end-of-stream handling of ordered mode (tsv_parser.go lines
441-449): with a recorded error every residual holding-map entry is only
released; otherwise each residual entry is processed. `flushed` is the
holding map's entries in Go map iteration order (an unspecified permutation
of the entries). -/
def finish (strict : Bool) (onRow : Row → Option Nat)
    (flushed : List (Nat × parseResultM)) (s : CState) : CState :=
  match s.err with
  | some _ => { s with released := s.released ++ flushed.map (fun p => p.2.buf) }
  | none => flushed.foldl (fun st p => processResultM strict onRow st p.2) s

/-- The initial state of `consumeResults` (tsv_parser.go lines 372-377);
`cols0` is `opts.ExpectedColumns`. -/
def initCState (cols0 : Nat) : CState :=
  ⟨0, [], none, cols0, [], []⟩

/-- `consumeResults` in ordered mode (`opts.PreserveOrder`), as a function
of the arrival order of the worker results and of the iteration order the
end-of-stream flush sees. -/
def consumeOrdered (strict : Bool) (onRow : Row → Option Nat) (cols0 : Nat)
    (arrivals : List parseResultM) (flushed : List (Nat × parseResultM)) : CState :=
  finish strict onRow flushed
    (arrivals.foldl (stepArrival strict onRow) (initCState cols0))

/-- The worker result carrying the rows `f k` and buffer `g k` for sequence
number `k` (what `workerLoop` emits for batch `k` of a fixed input:
tsv_parser.go lines 354-370; `workerLoop` never attaches an error). -/
def mkRes (f : Nat → List Row) (g : Nat → Nat) (k : Nat) : parseResultM :=
  ⟨k, f k, none, g k⟩

/-! ### Error-free runs deliver everything -/

theorem processRows_false (onRow : Row → Option Nat) (honRow : ∀ r, onRow r = none) :
    ∀ (rows : List Row) (cols : Nat),
      processRows false onRow rows cols = (rows, cols, none) := by
  intro rows
  induction rows with
  | nil => intro cols; rfl
  | cons r rest ih =>
    intro cols
    simp [processRows, honRow r, ih cols]

theorem processResultM_noerr (onRow : Row → Option Nat) (honRow : ∀ r, onRow r = none)
    (s : CState) (r : parseResultM) (hs : s.err = none) (hr : r.err = none) :
    processResultM false onRow s r
      = { s with delivered := s.delivered ++ r.rows,
                 released := s.released ++ [r.buf] } := by
  simp only [processResultM, hs, hr, processRows_false onRow honRow]

/-! ### The holding map in `ks.map (fun i => (i, mkRes f g i))` form -/

theorem lookupRemove_map_not_mem (f : Nat → List Row) (g : Nat → Nat) (k : Nat)
    (ks : List Nat) (h : k ∉ ks) :
    lookupRemove k (ks.map fun i => (i, mkRes f g i)) = none := by
  induction ks with
  | nil => rfl
  | cons i rest ih =>
    have hik : i ≠ k := fun he => h (he ▸ List.mem_cons_self i rest)
    have hrest : k ∉ rest := fun hm => h (List.mem_cons_of_mem i hm)
    simp [lookupRemove, hik, ih hrest]

theorem lookupRemove_map_mem (f : Nat → List Row) (g : Nat → Nat) (k : Nat)
    (ks : List Nat) (h : k ∈ ks) :
    lookupRemove k (ks.map fun i => (i, mkRes f g i))
      = some (mkRes f g k, (ks.erase k).map fun i => (i, mkRes f g i)) := by
  induction ks with
  | nil => simp at h
  | cons i rest ih =>
    by_cases hik : i = k
    · subst hik
      simp [lookupRemove, List.erase_cons_head]
    · have hk : k ∈ rest := by
        rcases List.mem_cons.mp h with h1 | h1
        · exact absurd h1.symm hik
        · exact h1
      simp [lookupRemove, hik, ih hk, List.erase_cons_tail, hik]

theorem insertA_map_not_mem (f : Nat → List Row) (g : Nat → Nat) (a : Nat)
    (ks : List Nat) (h : a ∉ ks) :
    insertA a (mkRes f g a) (ks.map fun i => (i, mkRes f g i))
      = (ks ++ [a]).map fun i => (i, mkRes f g i) := by
  induction ks with
  | nil => rfl
  | cons i rest ih =>
    have hia : i ≠ a := fun he => h (he ▸ List.mem_cons_self i rest)
    have hrest : a ∉ rest := fun hm => h (List.mem_cons_of_mem i hm)
    simp [insertA, hia, ih hrest]

/-- What the drain loop does to an error-free state whose holding map holds
the results for the key set `ks`: it delivers the maximal contiguous run
`e, e+1, ...` present in `ks`, in that order, removing it from the map. -/
theorem drain_spec (f : Nat → List Row) (g : Nat → Nat) (onRow : Row → Option Nat)
    (honRow : ∀ r, onRow r = none) :
    ∀ (fuel : Nat) (ks : List Nat) (e c : Nat) (d : List Row) (rl : List Nat),
      ks.length ≤ fuel → ks.Nodup → (∀ k ∈ ks, e ≤ k) →
      ∃ m ks',
        drain false onRow fuel ⟨e, ks.map (fun i => (i, mkRes f g i)), none, c, d, rl⟩
          = ⟨e + m, ks'.map (fun i => (i, mkRes f g i)), none, c,
              d ++ (List.range' e m).flatMap f, rl ++ (List.range' e m).map g⟩
        ∧ ks'.Nodup ∧ (∀ k ∈ ks', e + m < k)
        ∧ (List.range' e m ++ ks').Perm ks := by
  intro fuel
  induction fuel with
  | zero =>
    intro ks e c d rl hlen hnd hge
    have hks : ks = [] := List.length_eq_zero.mp (Nat.le_zero.mp hlen)
    subst hks
    exact ⟨0, [], by simp [drain], by simp, by simp, by simp⟩
  | succ fuel ih =>
    intro ks e c d rl hlen hnd hge
    by_cases he : e ∈ ks
    · have hpr : processResultM false onRow
          ⟨e, (ks.erase e).map (fun i => (i, mkRes f g i)), none, c, d, rl⟩ (mkRes f g e)
          = ⟨e, (ks.erase e).map (fun i => (i, mkRes f g i)), none, c,
              d ++ f e, rl ++ [g e]⟩ :=
        processResultM_noerr onRow honRow _ _ rfl rfl
      have hstep :
          drain false onRow (fuel + 1) ⟨e, ks.map (fun i => (i, mkRes f g i)), none, c, d, rl⟩
          = drain false onRow fuel
              ⟨e + 1, (ks.erase e).map (fun i => (i, mkRes f g i)), none, c,
                d ++ f e, rl ++ [g e]⟩ := by
        show (match lookupRemove e (ks.map fun i => (i, mkRes f g i)) with
          | none => _
          | some (res, pending') => _) = _
        rw [lookupRemove_map_mem f g e ks he]
        dsimp only
        rw [hpr]
        simp
      rw [hstep]
      have hlen' : (ks.erase e).length ≤ fuel := by
        rw [List.length_erase_of_mem he]
        omega
      have hnd' : (ks.erase e).Nodup := hnd.erase e
      have hge' : ∀ k ∈ ks.erase e, e + 1 ≤ k := by
        intro k hk
        rcases (List.Nodup.mem_erase_iff hnd).mp hk with ⟨hne, hmem⟩
        have := hge k hmem
        omega
      obtain ⟨m', ks', heq, hnd'', hgt, hperm⟩ :=
        ih (ks.erase e) (e + 1) c (d ++ f e) (rl ++ [g e]) hlen' hnd' hge'
      refine ⟨m' + 1, ks', ?_, hnd'', ?_, ?_⟩
      · rw [heq]
        have h1 : e + 1 + m' = e + (m' + 1) := by omega
        have h2 : List.range' e (m' + 1) = e :: List.range' (e + 1) m' := by
          rw [List.range'_succ]
        rw [h1, h2]
        simp
      · intro k hk
        have := hgt k hk
        omega
      · have h2 : List.range' e (m' + 1) = e :: List.range' (e + 1) m' := by
          rw [List.range'_succ]
        rw [h2]
        have hp2 : (e :: (List.range' (e + 1) m' ++ ks')).Perm ks :=
          (hperm.cons e).trans (List.perm_cons_erase he).symm
        simpa using hp2
    · have hstep :
          drain false onRow (fuel + 1) ⟨e, ks.map (fun i => (i, mkRes f g i)), none, c, d, rl⟩
          = ⟨e, ks.map (fun i => (i, mkRes f g i)), none, c, d, rl⟩ := by
        show (match lookupRemove e (ks.map fun i => (i, mkRes f g i)) with
          | none => _
          | some (res, pending') => _) = _
        rw [lookupRemove_map_not_mem f g e ks he]
      rw [hstep]
      refine ⟨0, ks, ?_, hnd, ?_, ?_⟩
      · simp
      · intro k hk
        have h1 := hge k hk
        have h2 : k ≠ e := fun h => he (h ▸ hk)
        omega
      · simp

/-- The ordered receive loop over an arbitrary arrival order, no errors
anywhere: from an error-free state expecting `e` with holding-map keys `ks`,
after the arrivals `as` the delivered rows have grown by exactly the
contiguous run `e, e+1, ..., e2-1`, in that order, and the keys not yet
delivered are exactly the rest. -/
theorem foldArrivals_spec (f : Nat → List Row) (g : Nat → Nat)
    (onRow : Row → Option Nat) (honRow : ∀ r, onRow r = none) :
    ∀ (as : List Nat) (e c : Nat) (ks : List Nat) (d : List Row) (rl : List Nat),
      (ks ++ as).Nodup →
      (∀ k ∈ ks, e < k) →
      (∀ a ∈ as, e ≤ a) →
      ∃ e2 ks2,
        List.foldl (stepArrival false onRow)
            ⟨e, ks.map (fun i => (i, mkRes f g i)), none, c, d, rl⟩
            (as.map (mkRes f g))
          = ⟨e2, ks2.map (fun i => (i, mkRes f g i)), none, c,
              d ++ (List.range' e (e2 - e)).flatMap f,
              rl ++ (List.range' e (e2 - e)).map g⟩
        ∧ e ≤ e2 ∧ ks2.Nodup ∧ (∀ k ∈ ks2, e2 < k)
        ∧ (List.range' e (e2 - e) ++ ks2).Perm (ks ++ as) := by
  intro as
  induction as with
  | nil =>
    intro e c ks d rl hnd hks _
    refine ⟨e, ks, ?_, Nat.le_refl e, ?_, hks, ?_⟩
    · simp
    · simpa using hnd
    · simp
  | cons a as ih =>
    intro e c ks d rl hnd hks has
    obtain ⟨hndks, hndaas, hdisj⟩ := List.nodup_append.mp hnd
    have hanotin : a ∉ ks := fun hm => hdisj hm (List.mem_cons_self a as)
    have hins := insertA_map_not_mem f g a ks hanotin
    have hstep : stepArrival false onRow
        ⟨e, ks.map (fun i => (i, mkRes f g i)), none, c, d, rl⟩ (mkRes f g a)
        = drain false onRow (((ks ++ [a]).map (fun i => (i, mkRes f g i))).length)
            ⟨e, (ks ++ [a]).map (fun i => (i, mkRes f g i)), none, c, d, rl⟩ := by
      show drain false onRow
          ((insertA a (mkRes f g a) (ks.map fun i => (i, mkRes f g i))).length)
          ⟨e, insertA a (mkRes f g a) (ks.map fun i => (i, mkRes f g i)), none, c, d, rl⟩
        = _
      rw [hins]
    have hnd1 : (ks ++ [a]).Nodup := by
      rw [List.nodup_append]
      exact ⟨hndks, List.nodup_singleton a,
        fun x hx hxa => hdisj hx ((List.mem_singleton.mp hxa) ▸ List.mem_cons_self a as)⟩
    have hge1 : ∀ k ∈ ks ++ [a], e ≤ k := by
      intro k hk
      rcases List.mem_append.mp hk with h | h
      · exact Nat.le_of_lt (hks k h)
      · exact (List.mem_singleton.mp h) ▸ has a (List.mem_cons_self a as)
    obtain ⟨m, ks1, heq1, hnd2, hgt1, hperm1⟩ :=
      drain_spec f g onRow honRow ((ks ++ [a]).map (fun i => (i, mkRes f g i))).length
        (ks ++ [a]) e c d rl (by simp) hnd1 hge1
    have hstep2 : List.foldl (stepArrival false onRow)
        ⟨e, ks.map (fun i => (i, mkRes f g i)), none, c, d, rl⟩
        ((a :: as).map (mkRes f g))
        = List.foldl (stepArrival false onRow)
            ⟨e + m, ks1.map (fun i => (i, mkRes f g i)), none, c,
              d ++ (List.range' e m).flatMap f, rl ++ (List.range' e m).map g⟩
            (as.map (mkRes f g)) := by
      rw [List.map_cons, List.foldl_cons, hstep, heq1]
    rw [hstep2]
    -- set up the induction hypothesis for the remaining arrivals
    have hmem_ks1 : ∀ k ∈ ks1, k ∈ ks ++ [a] := by
      intro k hk
      exact hperm1.mem_iff.mp (List.mem_append_right _ hk)
    have hndrest : (ks1 ++ as).Nodup := by
      rw [List.nodup_append]
      refine ⟨hnd2, (List.nodup_cons.mp hndaas).2, ?_⟩
      intro x hx hxas
      rcases List.mem_append.mp (hmem_ks1 x hx) with h | h
      · exact hdisj h (List.mem_cons_of_mem a hxas)
      · exact (List.nodup_cons.mp hndaas).1 ((List.mem_singleton.mp h) ▸ hxas)
    have hgerest : ∀ b ∈ as, e + m ≤ b := by
      intro b hb
      by_contra hlt
      have hbe : e ≤ b := has b (List.mem_cons_of_mem a hb)
      have hbr : b ∈ List.range' e m := List.mem_range'_1.mpr ⟨hbe, by omega⟩
      have : b ∈ ks ++ [a] := hperm1.mem_iff.mp (List.mem_append_left _ hbr)
      rcases List.mem_append.mp this with h | h
      · exact hdisj h (List.mem_cons_of_mem a hb)
      · exact (List.nodup_cons.mp hndaas).1 ((List.mem_singleton.mp h) ▸ hb)
    obtain ⟨e2, ks2, heq2, hle2, hnd3, hgt2, hperm2⟩ :=
      ih (e + m) c ks1 (d ++ (List.range' e m).flatMap f)
        (rl ++ (List.range' e m).map g) hndrest hgt1 hgerest
    have hr : List.range' e m ++ List.range' (e + m) (e2 - (e + m))
        = List.range' e (e2 - e) := by
      have := List.range'_append_1 e m (e2 - (e + m))
      rw [this]
      congr 1
      omega
    refine ⟨e2, ks2, ?_, by omega, hnd3, hgt2, ?_⟩
    · rw [heq2]
      have h3 : (List.range' e (e2 - e)).flatMap f
          = (List.range' e m).flatMap f
            ++ (List.range' (e + m) (e2 - (e + m))).flatMap f := by
        rw [← hr, List.flatMap_append]
      have h4 : List.map g (List.range' e (e2 - e))
          = List.map g (List.range' e m)
            ++ List.map g (List.range' (e + m) (e2 - (e + m))) := by
        rw [← hr, List.map_append]
      rw [h3, h4, ← List.append_assoc, ← List.append_assoc]
    · have hp1 : List.range' e (e2 - e) ++ ks2
          = List.range' e m ++ (List.range' (e + m) (e2 - (e + m)) ++ ks2) := by
        rw [← hr, List.append_assoc]
      rw [hp1]
      have hp2 := hperm2.append_left (List.range' e m)
      have hp3 : List.range' e m ++ (ks1 ++ as) = (List.range' e m ++ ks1) ++ as := by
        rw [List.append_assoc]
      have hp4 := hperm1.append_right as
      have hp5 : (ks ++ [a]) ++ as = ks ++ a :: as := by simp
      exact hp2.trans (by rw [hp3]; exact hp4.trans (by rw [hp5]))

/-- When the complete set of results `0..n-1` arrives (in any order), every
result is drained: the holding map ends empty and the rows are delivered in
sequence order. -/
theorem foldArrivals_complete (f : Nat → List Row) (g : Nat → Nat)
    (onRow : Row → Option Nat) (honRow : ∀ r, onRow r = none)
    (n cols0 : Nat) (as : List Nat) (hperm : as.Perm (List.range n)) :
    List.foldl (stepArrival false onRow) (initCState cols0) (as.map (mkRes f g))
      = ⟨n, [], none, cols0, (List.range n).flatMap f, (List.range n).map g⟩ := by
  have hnd : ([] ++ as : List Nat).Nodup := by
    simpa using (hperm.nodup_iff.mpr (List.nodup_range n))
  obtain ⟨e2, ks2, heq, hle, hnd2, hgt, hperm'⟩ :=
    foldArrivals_spec f g onRow honRow as 0 cols0 [] [] [] hnd (by simp) (by simp)
  have hpr : (List.range' 0 e2 ++ ks2).Perm (List.range n) := by
    have h1 : (List.range' 0 (e2 - 0) ++ ks2).Perm ([] ++ as) := hperm'
    simpa using h1.trans hperm
  have hen : e2 = n ∧ ks2 = [] := by
    have hlen : e2 + ks2.length = n := by
      have := hpr.length_eq
      simpa [List.length_range', List.length_range] using this
    have hge : n ≤ e2 := by
      by_contra hlt
      have h1 : e2 ∈ List.range n := List.mem_range.mpr (by omega)
      have h2 : e2 ∈ List.range' 0 e2 ++ ks2 := hpr.symm.mem_iff.mp h1
      rcases List.mem_append.mp h2 with h3 | h3
      · have := List.mem_range'_1.mp h3
        omega
      · exact absurd (hgt e2 h3) (by omega)
    have he2 : e2 = n := by omega
    have hks : ks2 = [] := by
      have : ks2.length = 0 := by omega
      exact List.length_eq_zero.mp this
    exact ⟨he2, hks⟩
  obtain ⟨he2, hks⟩ := hen
  subst he2
  subst hks
  have hr : List.range' 0 (e2 - 0) = List.range e2 := by
    rw [Nat.sub_zero, List.range_eq_range']
  show List.foldl (stepArrival false onRow)
      ⟨0, ([] : List Nat).map (fun i => (i, mkRes f g i)), none, cols0, [], []⟩
      (as.map (mkRes f g)) = _
  rw [heq, hr]
  simp

/-- The parsed rows of a record list, with 1-based line numbers in order
(what `readBatches` + `workerLoop` produce for the whole input:
tsv_parser.go lines 263-265 and 354-363). -/
def rowsOf (recs : List (List Nat)) : List Row :=
  (List.range recs.length).map (fun i => ⟨Int.ofNat i + 1, splitFields (recs.getD i [])⟩)

theorem flatMap_range_getD {α : Type} (gs : List (List α)) :
    (List.range gs.length).flatMap (fun i => gs.getD i []) = gs.flatten := by
  induction gs with
  | nil => simp
  | cons x gs ih =>
    rw [List.length_cons, List.range_succ_eq_map, List.flatMap_cons, List.flatten_cons, ← ih]
    congr 1
    rw [List.flatMap_map]
    rfl

/-! ### `processResult` ignores `expected`/`pending` (frame lemmas) -/

theorem processResultM_set (strict : Bool) (onRow : Row → Option Nat)
    (s : CState) (r : parseResultM) (x : Nat) (p : List (Nat × parseResultM)) :
    processResultM strict onRow { s with expected := x, pending := p } r
      = { processResultM strict onRow s r with expected := x, pending := p } := by
  unfold processResultM
  cases hs : s.err with
  | some e => rfl
  | none =>
    cases hr : r.err with
    | some e => rfl
    | none => rfl

theorem foldProcess_set (strict : Bool) (onRow : Row → Option Nat) :
    ∀ (rs : List parseResultM) (s : CState) (x : Nat) (p : List (Nat × parseResultM)),
      List.foldl (processResultM strict onRow) { s with expected := x, pending := p } rs
        = { List.foldl (processResultM strict onRow) s rs with expected := x, pending := p } := by
  intro rs
  induction rs with
  | nil => intro s x p; rfl
  | cons r rest ih =>
    intro s x p
    rw [List.foldl_cons, List.foldl_cons, processResultM_set, ih]

/-- After an error, `processResult` only releases buffers. -/
theorem foldProcess_err (strict : Bool) (onRow : Row → Option Nat) :
    ∀ (rs : List parseResultM) (s : CState), s.err.isSome →
      List.foldl (processResultM strict onRow) s rs
        = { s with released := s.released ++ rs.map (fun r => r.buf) } := by
  intro rs
  induction rs with
  | nil => intro s _; simp
  | cons r rest ih =>
    intro s hs
    obtain ⟨e, he⟩ := Option.isSome_iff_exists.mp hs
    have hone : processResultM strict onRow s r = { s with released := s.released ++ [r.buf] } := by
      unfold processResultM
      rw [he]
    rw [List.foldl_cons, hone, ih _ (by simp [he])]
    simp

/-- Without any error, `processResult` delivers every row of every result and
releases every result's buffer, in order. -/
theorem foldProcess_noerr (onRow : Row → Option Nat) (honRow : ∀ r, onRow r = none) :
    ∀ (rs : List parseResultM) (s : CState), s.err = none →
      (∀ r ∈ rs, r.err = none) →
      List.foldl (processResultM false onRow) s rs
        = { s with delivered := s.delivered ++ rs.flatMap (fun r => r.rows),
                   released := s.released ++ rs.map (fun r => r.buf) } := by
  intro rs
  induction rs with
  | nil => intro s _ _; simp
  | cons r rest ih =>
    intro s hs hr
    rw [List.foldl_cons,
      processResultM_noerr onRow honRow s r hs (hr r (List.mem_cons_self r rest))]
    rw [ih { s with delivered := s.delivered ++ r.rows, released := s.released ++ [r.buf] }
      hs (fun x hx => hr x (List.mem_cons_of_mem r hx))]
    simp

/-- The end-of-stream flush with a recorded error: release-only. -/
theorem finish_err (strict : Bool) (onRow : Row → Option Nat)
    (flushed : List (Nat × parseResultM)) (s : CState) (e : PErr) (hs : s.err = some e) :
    finish strict onRow flushed s
      = { s with released := s.released ++ flushed.map (fun p => p.2.buf) } := by
  unfold finish
  rw [hs]

/-- The end-of-stream flush without an error: every residual entry's rows are
delivered, in the iteration order the flush sees, and its buffer released. -/
theorem finish_noerr (onRow : Row → Option Nat) (honRow : ∀ r, onRow r = none)
    (flushed : List (Nat × parseResultM)) (s : CState) (hs : s.err = none)
    (hr : ∀ p ∈ flushed, p.2.err = none) :
    finish false onRow flushed s
      = { s with delivered := s.delivered ++ flushed.flatMap (fun p => p.2.rows),
                 released := s.released ++ flushed.map (fun p => p.2.buf) } := by
  unfold finish
  rw [hs]
  have h1 : List.foldl (fun st p => processResultM false onRow st p.2) s flushed
      = List.foldl (processResultM false onRow) s (flushed.map Prod.snd) := by
    rw [List.foldl_map]
  have h2 : ∀ x ∈ flushed.map Prod.snd, x.err = none := by
    intro x hx
    obtain ⟨p, hp, hpx⟩ := List.mem_map.mp hx
    exact hpx ▸ hr p hp
  rw [h1, foldProcess_noerr onRow honRow (flushed.map Prod.snd) s hs h2]
  simp [List.flatMap_map, List.map_map]
  exact hs

/-! ### Strict-column scanning (C5) -/

theorem processRows_append_err (strict : Bool) (onRow : Row → Option Nat) :
    ∀ (rows1 rows2 : List Row) (cols : Nat) (d1 : List Row) (c1 : Nat) (e : PErr),
      processRows strict onRow rows1 cols = (d1, c1, some e) →
      processRows strict onRow (rows1 ++ rows2) cols = (d1, c1, some e) := by
  intro rows1
  induction rows1 with
  | nil =>
    intro rows2 cols d1 c1 e h
    simp [processRows, Prod.ext_iff] at h
  | cons r rest ih =>
    intro rows2 cols d1 c1 e h
    rw [List.cons_append]
    rw [processRows] at h ⊢
    by_cases hc : strict ∧ cols ≠ 0 ∧ r.fields.length ≠ cols
    · rw [if_pos hc] at h ⊢
      exact h
    · rw [if_neg hc] at h ⊢
      cases ho : onRow r with
      | some ce => rw [ho] at h; dsimp only at h ⊢; exact h
      | none =>
        rw [ho] at h
        dsimp only at h ⊢
        rcases hP : processRows strict onRow rest
            (if strict ∧ cols = 0 then r.fields.length else cols) with ⟨pd, pc, pe⟩
        rw [hP] at h
        obtain ⟨h1, h2, h3⟩ : r :: pd = d1 ∧ pc = c1 ∧ pe = some e := by
          simpa [Prod.ext_iff] using h
        rw [ih rows2 _ pd pc e (by rw [hP, h3]), h1, h2]

theorem processRows_append_ok (strict : Bool) (onRow : Row → Option Nat) :
    ∀ (rows1 rows2 : List Row) (cols : Nat) (d1 : List Row) (c1 : Nat),
      processRows strict onRow rows1 cols = (d1, c1, none) →
      processRows strict onRow (rows1 ++ rows2) cols
        = (d1 ++ (processRows strict onRow rows2 c1).1,
            (processRows strict onRow rows2 c1).2.1,
            (processRows strict onRow rows2 c1).2.2) := by
  intro rows1
  induction rows1 with
  | nil =>
    intro rows2 cols d1 c1 h
    obtain ⟨h1, h2, h3⟩ : ([] : List Row) = d1 ∧ cols = c1 ∧ (none : Option PErr) = none := by
      simpa [processRows, Prod.ext_iff] using h
    rw [List.nil_append, ← h1, ← h2, List.nil_append]
  | cons r rest ih =>
    intro rows2 cols d1 c1 h
    rw [List.cons_append]
    rw [processRows] at h ⊢
    by_cases hc : strict ∧ cols ≠ 0 ∧ r.fields.length ≠ cols
    · rw [if_pos hc] at h
      simp [Prod.ext_iff] at h
    · rw [if_neg hc] at h ⊢
      cases ho : onRow r with
      | some ce =>
        rw [ho] at h
        dsimp only at h
        simp [Prod.ext_iff] at h
      | none =>
        rw [ho] at h
        dsimp only at h ⊢
        rcases hP : processRows strict onRow rest
            (if strict ∧ cols = 0 then r.fields.length else cols) with ⟨pd, pc, pe⟩
        rw [hP] at h
        obtain ⟨h1, h2, h3⟩ : r :: pd = d1 ∧ pc = c1 ∧ pe = none := by
          simpa [Prod.ext_iff] using h
        rw [ih rows2 _ pd pc (by rw [hP, h3]), h2, ← h1]
        simp

/-- Sequentially processing error-free worker results is the same as one
strict-column scan over their concatenated rows: the first violation stops
delivery, later results are only released. -/
theorem foldProcess_flat (strict : Bool) (onRow : Row → Option Nat) :
    ∀ (rs : List parseResultM) (s : CState), s.err = none →
      (∀ r ∈ rs, r.err = none) →
      List.foldl (processResultM strict onRow) s rs
        = { s with
            delivered := s.delivered
              ++ (processRows strict onRow (rs.flatMap (fun r => r.rows)) s.cols).1,
            cols := (processRows strict onRow (rs.flatMap (fun r => r.rows)) s.cols).2.1,
            err := (processRows strict onRow (rs.flatMap (fun r => r.rows)) s.cols).2.2,
            released := s.released ++ rs.map (fun r => r.buf) } := by
  intro rs
  induction rs with
  | nil =>
    intro s hs _
    simp [processRows, ← hs]
  | cons r rest ih =>
    intro s hs hr
    have hone : processResultM strict onRow s r
        = { s with cols := (processRows strict onRow r.rows s.cols).2.1,
                   err := (processRows strict onRow r.rows s.cols).2.2,
                   delivered := s.delivered ++ (processRows strict onRow r.rows s.cols).1,
                   released := s.released ++ [r.buf] } := by
      unfold processResultM
      rw [hs, hr r (List.mem_cons_self r rest)]
    rw [List.foldl_cons, hone]
    rcases hP : processRows strict onRow r.rows s.cols with ⟨pd, pc, pe⟩
    dsimp only
    cases pe with
    | some e =>
      rw [foldProcess_err strict onRow rest _ (by simp)]
      rw [List.flatMap_cons,
        processRows_append_err strict onRow r.rows (rest.flatMap (fun x => x.rows))
          s.cols pd pc e hP]
      simp
    | none =>
      have hrec := ih
        { s with cols := pc, err := none,
                 delivered := s.delivered ++ pd,
                 released := s.released ++ [r.buf] }
        rfl (fun x hx => hr x (List.mem_cons_of_mem r hx))
      rw [hrec]
      rw [List.flatMap_cons,
        processRows_append_ok strict onRow r.rows (rest.flatMap (fun x => x.rows))
          s.cols pd pc hP]
      simp

/-- An in-order arrival at an empty holding map is processed immediately. -/
theorem stepArrival_inorder (strict : Bool) (onRow : Row → Option Nat)
    (s : CState) (r : parseResultM) (hp : s.pending = [])
    (hseq : r.seq = s.expected) (he : s.err = none) :
    stepArrival strict onRow s r
      = { processResultM strict onRow s r with expected := s.expected + 1, pending := [] } := by
  have hsome : s.err.isSome = false := by rw [he]; rfl
  unfold stepArrival
  rw [hsome, if_neg (by simp), hp]
  show drain strict onRow (insertA r.seq r []).length
      { s with pending := insertA r.seq r [] } = _
  have hlen : (insertA r.seq r []).length = 1 := rfl
  rw [hlen]
  show (match lookupRemove s.expected [(r.seq, r)] with
    | none => _
    | some (res, pending') => _) = _
  have hlr : lookupRemove s.expected [(r.seq, r)] = some (r, []) := by
    unfold lookupRemove
    rw [hseq, if_pos rfl]
  rw [hlr]
  dsimp only
  rw [processResultM_set strict onRow s r s.expected []]
  by_cases hE : ({ processResultM strict onRow s r with
      expected := s.expected, pending := ([] : List (Nat × parseResultM)) }).err.isSome
  · rw [if_pos hE]
  · rw [if_neg hE]
    rfl

/-- In-order arrival streams: consuming is sequential processing (the holding
map never retains anything), whatever errors occur. -/
theorem foldInorder (strict : Bool) (onRow : Row → Option Nat) :
    ∀ (rs : List parseResultM) (s : CState), s.pending = [] →
      (s.err = none → rs.map (fun r => r.seq) = List.range' s.expected rs.length) →
      ∃ e2, List.foldl (stepArrival strict onRow) s rs
        = { List.foldl (processResultM strict onRow) s rs with
            expected := e2, pending := [] } := by
  intro rs
  induction rs with
  | nil =>
    intro s hp _
    refine ⟨s.expected, ?_⟩
    simp only [List.foldl_nil]
    rw [← hp]
  | cons r rest ih =>
    intro s hp hseq
    cases he : s.err with
    | none =>
      have hs1 := hseq he
      rw [List.map_cons, List.length_cons, List.range'_succ] at hs1
      have hrseq : r.seq = s.expected := (List.cons.injEq .. ▸ hs1).1
      have hrest : rest.map (fun r => r.seq) = List.range' (s.expected + 1) rest.length :=
        (List.cons.injEq .. ▸ hs1).2
      rw [List.foldl_cons, stepArrival_inorder strict onRow s r hp hrseq he]
      obtain ⟨e2, heq⟩ := ih
        { processResultM strict onRow s r with expected := s.expected + 1, pending := [] }
        rfl
        (by
          intro h2
          simpa using hrest)
      rw [heq, List.foldl_cons, foldProcess_set]
      exact ⟨e2, rfl⟩
    | some e =>
      have hsome : s.err.isSome := by rw [he]; rfl
      have hone : stepArrival strict onRow s r
          = { s with released := s.released ++ [r.buf] } := by
        unfold stepArrival
        rw [if_pos hsome]
      have hone2 : processResultM strict onRow s r
          = { s with released := s.released ++ [r.buf] } := by
        unfold processResultM
        rw [he]
      obtain ⟨e2, heq⟩ := ih { s with released := s.released ++ [r.buf] }
        hp (fun h2 => absurd (h2 ▸ he) (by simp))
      rw [List.foldl_cons, hone, heq, List.foldl_cons, hone2]
      exact ⟨e2, rfl⟩

theorem processRows_strict_run (onRow : Row → Option Nat) (honRow : ∀ r, onRow r = none)
    (c : Nat) (hc : c ≠ 0) :
    ∀ (pre : List Row) (bad : Row) (post : List Row),
      (∀ x ∈ pre, x.fields.length = c) → bad.fields.length ≠ c →
      processRows true onRow (pre ++ bad :: post) c
        = (pre, c, some (.strict bad.line c bad.fields.length)) := by
  intro pre
  induction pre with
  | nil =>
    intro bad post _ hbad
    rw [List.nil_append, processRows, if_pos ⟨rfl, hc, hbad⟩]
  | cons x pre ih =>
    intro bad post hpre hbad
    rw [List.cons_append, processRows]
    have hx : x.fields.length = c := hpre x (List.mem_cons_self x pre)
    rw [if_neg (by simp [hx])]
    rw [honRow x]
    dsimp only
    rw [if_neg (by simp [hc])]
    rw [ih bad post (fun y hy => hpre y (List.mem_cons_of_mem x hy)) hbad]

/-- With `StrictColumns` on and `ExpectedColumns` 0, the first row's field
count becomes the expected count; the first later row that differs stops the
scan with the strict error naming its line, the expected and the got
counts. -/
theorem processRows_strict_first (onRow : Row → Option Nat) (honRow : ∀ r, onRow r = none)
    (r0 bad : Row) (pre post : List Row)
    (h0 : r0.fields.length ≠ 0)
    (hpre : ∀ x ∈ pre, x.fields.length = r0.fields.length)
    (hbad : bad.fields.length ≠ r0.fields.length) :
    processRows true onRow (r0 :: (pre ++ bad :: post)) 0
      = (r0 :: pre, r0.fields.length,
          some (.strict bad.line r0.fields.length bad.fields.length)) := by
  rw [processRows, if_neg (by simp), honRow r0]
  dsimp only
  rw [if_pos ⟨rfl, rfl⟩]
  rw [processRows_strict_run onRow honRow r0.fields.length h0 pre bad post hpre hbad]

/-! ### Buffer reference counting (C4)

`bufferRef.release` (tsv_parser.go lines 53-63) decrements the count and
puts the buffer back in the pool exactly when the decremented value is 0. -/

/-- One `release()` call: the state is (current count, number of times the
buffer has been returned to the pool so far). -/
def releaseStep (st : Int × Nat) : Int × Nat :=
  (st.1 - 1, if st.1 - 1 = 0 then st.2 + 1 else st.2)

/-- `n` successive `release()` calls starting from refcount `init`. -/
def runReleases (init : Int) (n : Nat) : Int × Nat :=
  (List.range n).foldl (fun st _ => releaseStep st) (init, 0)

/-- How many `release()` calls a chunk's buffer receives. The refcount is
initialized to `batchCount` (tsv_parser.go line 285). Each batch that was
sent becomes a worker result, and `consumeResults` releases each result
exactly once, on every path. If the context is cancelled while sending a
batch, the reader calls `release()` once and returns (lines 305-307),
leaving any remaining batches of the chunk unreleased. -/
def chunkReleaseCount (batchCount sent : Nat) (cancelled : Bool) : Nat :=
  if cancelled then sent + 1 else batchCount

/-- A full run never drives the count below zero and returns the buffer to
the pool exactly once. -/
theorem runReleases_all (n : Nat) (hn : 1 ≤ n) :
    runReleases (n : Int) n = (0, 1) := by
  suffices h : ∀ (k : Nat) (p : Nat), 1 ≤ k →
      (List.range k).foldl (fun st _ => releaseStep st) ((k : Int), p) = (0, p + 1) by
    exact h n 0 hn
  intro k
  induction k with
  | zero => intro p h1; omega
  | succ k ih =>
    intro p _
    rw [List.range_succ_eq_map, List.foldl_cons, List.foldl_map]
    by_cases hk : k = 0
    · subst hk
      norm_num [releaseStep]
    · have h2 : releaseStep (((k + 1 : Nat) : Int), p) = ((k : Int), p) := by
        unfold releaseStep
        have e1 : ((k + 1 : Nat) : Int) - 1 = (k : Int) := by push_cast; ring
        dsimp only
        rw [e1, if_neg (by exact_mod_cast hk)]
      rw [h2]
      exact ih p (by omega)

/-- The parsed rows' line numbers are `1, 2, 3, ...` in order. -/
theorem rowsOf_lines (recs : List (List Nat)) :
    (rowsOf recs).map Row.line
      = (List.range recs.length).map (fun i => Int.ofNat i + 1) := by
  simp [rowsOf, List.map_map]

/-- End-to-end ordered consumption of a complete, error-free result set, in
any arrival order: every row delivered once, in sequence order, every buffer
released, nothing left in the holding map. -/
theorem consumeOrdered_complete (f : Nat → List Row) (g : Nat → Nat)
    (onRow : Row → Option Nat) (honRow : ∀ r, onRow r = none) (n cols0 : Nat)
    (arrivals : List parseResultM)
    (hseq : (arrivals.map (fun r => r.seq)).Perm (List.range n))
    (hres : ∀ r ∈ arrivals, r = mkRes f g r.seq)
    (flushed : List (Nat × parseResultM))
    (hflush : flushed.Perm
      (List.foldl (stepArrival false onRow) (initCState cols0) arrivals).pending) :
    consumeOrdered false onRow cols0 arrivals flushed
      = ⟨n, [], none, cols0, (List.range n).flatMap f, (List.range n).map g⟩ := by
  have harr : (arrivals.map (fun r => r.seq)).map (mkRes f g) = arrivals := by
    rw [List.map_map]
    have h1 : arrivals.map (mkRes f g ∘ fun r => r.seq) = arrivals.map id :=
      List.map_congr_left (fun r hr => (hres r hr).symm)
    rw [h1, List.map_id]
  have hfold := foldArrivals_complete f g onRow honRow n cols0
    (arrivals.map (fun r => r.seq)) hseq
  rw [harr] at hfold
  have hpend : (List.foldl (stepArrival false onRow) (initCState cols0) arrivals).pending
      = [] := by rw [hfold]
  have hfl : flushed = [] := (hpend ▸ hflush).eq_nil
  unfold consumeOrdered
  rw [hfold, hfl]
  rfl

/-- The in-order worker results for the batch list `bs` with buffer ids `g`
(what the pipeline produces when results happen to arrive in sequence
order). -/
def inorderArrivals (bs : List (List Row)) (g : Nat → Nat) : List parseResultM :=
  (List.range bs.length).map (fun i => ⟨i, bs.getD i [], none, g i⟩)

/-! ## Concrete instances used by the claims -/

/-- The taxonomy of the C2 scenario: 10(parent 9, species), 9(parent 1,
genus), 1(parent 1, root sentinel), names only for 10 and 9. -/
def c2dump : taxDump :=
  mkTaxDump [(10, ⟨9, "species", "X"⟩), (9, ⟨1, "genus", "Y"⟩), (1, ⟨1, "no rank", ""⟩)]

/-- A two-node parent cycle: 1 → 2 → 1. -/
def c8dump : taxDump :=
  mkTaxDump [(1, ⟨2, "genus", "G"⟩), (2, ⟨1, "species", "S"⟩)]

/-- Two scientific-name rows for the same identifier 5. -/
def c6lines : List (List Char) :=
  ["5|Alpha||scientific name|".toList, "5|Beta||scientific name|".toList]

/-- Results for sequence numbers 1 and 2 (0 never arrives, as after an
upstream early termination): both stay in the holding map. -/
def c7arrivals : List parseResultM :=
  [⟨1, [⟨20, []⟩], none, 1⟩, ⟨2, [⟨30, []⟩], none, 2⟩]

/-- A Go map iteration order over those residual entries that visits
sequence 2 before sequence 1. -/
def c7flushed : List (Nat × parseResultM) :=
  [(2, ⟨2, [⟨30, []⟩], none, 2⟩), (1, ⟨1, [⟨20, []⟩], none, 1⟩)]

/-- The same residual holding map, as a reassembler state at stream end. -/
def c7state : CState :=
  ⟨0, [(1, ⟨1, [⟨20, []⟩], none, 1⟩), (2, ⟨2, [⟨30, []⟩], none, 2⟩)], none, 0, [], []⟩

/-- One chunk `a\nb\nc`: records `a`, `b` and the unterminated tail `c`. -/
def c1cs : List (List Nat) := [[97, 10, 98, 10, 99]]

/-- A batching of that input's three rows into two batches. -/
def c1gs : List (List Row) := [[⟨1, [[97]]⟩], [⟨2, [[98]]⟩, ⟨3, [[99]]⟩]]

/-- The two worker results arriving out of order (batch 1 before batch 0). -/
def c1arrivals : List parseResultM :=
  [⟨1, [⟨2, [[98]]⟩, ⟨3, [[99]]⟩], none, 0⟩, ⟨0, [⟨1, [[97]]⟩], none, 0⟩]

/-- Batches whose first row has two fields and whose second row has one. -/
def c5bs : List (List Row) := [[⟨1, [[], []]⟩], [⟨2, [[]]⟩]]

/-! ## The claims -/

/-- C1: in ordered mode, for every input (any chunking of it), every
batching of its rows, and every arrival order — any permutation by sequence
number — of the complete, error-free set of parse results, the reassembler
invokes the row callback exactly once per record, in strictly increasing
line-number order 1, 2, ..., N, with no gaps and no duplicates. -/
theorem claim_C1 (cs : List (List Nat)) (gs : List (List Row)) (g : Nat → Nat)
    (onRow : Row → Option Nat) (honRow : ∀ r, onRow r = none) (cols0 : Nat)
    (hbatch : gs.flatten = rowsOf (readBatchesModel [] cs))
    (arrivals : List parseResultM)
    (hseq : (arrivals.map (fun r => r.seq)).Perm (List.range gs.length))
    (hres : ∀ r ∈ arrivals, r = mkRes (fun i => gs.getD i []) g r.seq)
    (flushed : List (Nat × parseResultM))
    (hflush : flushed.Perm
      (List.foldl (stepArrival false onRow) (initCState cols0) arrivals).pending) :
    (consumeOrdered false onRow cols0 arrivals flushed).delivered
        = rowsOf (readBatchesModel [] cs)
    ∧ (consumeOrdered false onRow cols0 arrivals flushed).delivered.map Row.line
        = (List.range (readBatchesModel [] cs).length).map (fun i => Int.ofNat i + 1) := by
  have h := consumeOrdered_complete (fun i => gs.getD i []) g onRow honRow
    gs.length cols0 arrivals hseq hres flushed hflush
  have hdel : (consumeOrdered false onRow cols0 arrivals flushed).delivered
      = rowsOf (readBatchesModel [] cs) := by
    rw [h]
    show (List.range gs.length).flatMap (fun i => gs.getD i []) = _
    rw [flatMap_range_getD, hbatch]
  refine ⟨hdel, ?_⟩
  rw [hdel]
  exact rowsOf_lines (readBatchesModel [] cs)

/-- C1 witness: the input `a\nb\nc`, batched in two, with the results
arriving out of order, delivers rows 1, 2, 3 in order. -/
theorem claim_C1_witness :
    (consumeOrdered false (fun _ => none) 0 c1arrivals []).delivered
        = rowsOf (readBatchesModel [] c1cs)
    ∧ (consumeOrdered false (fun _ => none) 0 c1arrivals []).delivered.map Row.line
        = (List.range (readBatchesModel [] c1cs).length).map (fun i => Int.ofNat i + 1) :=
  claim_C1 c1cs c1gs (fun _ => 0) (fun _ => none) (fun _ => rfl) 0 (by decide)
    c1arrivals (by decide) (by decide) [] (by decide)

/-- C3: the number of records produced equals the newline count of the
whole byte stream plus one when non-empty content follows the last newline
(the unterminated tail emitted as a final record), for every chunking; and
the number of rows delivered equals the same count for every batching and
every arrival order of the complete result set. -/
theorem claim_C3 (cs : List (List Nat)) (gs : List (List Row)) (g : Nat → Nat)
    (onRow : Row → Option Nat) (honRow : ∀ r, onRow r = none) (cols0 : Nat)
    (hbatch : gs.flatten = rowsOf (readBatchesModel [] cs))
    (arrivals : List parseResultM)
    (hseq : (arrivals.map (fun r => r.seq)).Perm (List.range gs.length))
    (hres : ∀ r ∈ arrivals, r = mkRes (fun i => gs.getD i []) g r.seq)
    (flushed : List (Nat × parseResultM))
    (hflush : flushed.Perm
      (List.foldl (stepArrival false onRow) (initCState cols0) arrivals).pending) :
    (readBatchesModel [] cs).length
        = cs.flatten.count 10 + (if tailAfterLastNL cs.flatten = [] then 0 else 1)
    ∧ (consumeOrdered false onRow cols0 arrivals flushed).delivered.length
        = cs.flatten.count 10 + (if tailAfterLastNL cs.flatten = [] then 0 else 1) := by
  have h1 : (readBatchesModel [] cs).length
      = cs.flatten.count 10 + (if tailAfterLastNL cs.flatten = [] then 0 else 1) := by
    rw [readBatchesModel_eq cs [] (by simp), List.nil_append, records_length]
  refine ⟨h1, ?_⟩
  have h := consumeOrdered_complete (fun i => gs.getD i []) g onRow honRow
    gs.length cols0 arrivals hseq hres flushed hflush
  rw [h]
  show ((List.range gs.length).flatMap (fun i => gs.getD i [])).length = _
  rw [flatMap_range_getD, hbatch]
  have h2 : (rowsOf (readBatchesModel [] cs)).length = (readBatchesModel [] cs).length := by
    simp [rowsOf]
  rw [h2, h1]

/-- C3 witness: the input `a\nb\nc` has 2 newlines and a non-empty tail,
and 3 rows are produced and delivered. -/
theorem claim_C3_witness :
    (readBatchesModel [] c1cs).length
        = c1cs.flatten.count 10 + (if tailAfterLastNL c1cs.flatten = [] then 0 else 1)
    ∧ (consumeOrdered false (fun _ => none) 0 c1arrivals []).delivered.length
        = c1cs.flatten.count 10 + (if tailAfterLastNL c1cs.flatten = [] then 0 else 1) :=
  claim_C3 c1cs c1gs (fun _ => 0) (fun _ => none) (fun _ => rfl) 0 (by decide)
    c1arrivals (by decide) (by decide) [] (by decide)

/-- C9: with CRLF trimming disabled, record and field splitting is
lossless: rejoining each delivered row's fields with the tab byte and the
rows with the newline byte reproduces the input byte stream, except for one
stripped final newline terminator — for every chunking of the input. -/
theorem claim_C9 (cs : List (List Nat)) :
    joinB 10 ((readBatchesModel [] cs).map (fun r => joinB 9 (splitFields r)))
      = stripFinalNL cs.flatten := by
  rw [readBatchesModel_eq cs [] (by simp), List.nil_append]
  have h1 : (records cs.flatten).map (fun r => joinB 9 (splitFields r))
      = (records cs.flatten).map id :=
    List.map_congr_left (fun r _ => joinB_splitOnB 9 r)
  rw [h1, List.map_id, joinB_records]

/-- C10: splitFields returns exactly one more field than the record's tab
count, the fields in order covering the whole record (joining them with a
tab reproduces it); the empty record gives exactly one empty field, so
every row has at least one field. -/
theorem claim_C10 (r : List Nat) :
    (splitFields r).length = r.count 9 + 1
    ∧ joinB 9 (splitFields r) = r
    ∧ 1 ≤ (splitFields r).length
    ∧ splitFields [] = [[]] := by
  refine ⟨splitOnB_length 9 r, joinB_splitOnB 9 r, ?_, rfl⟩
  have h := splitOnB_length 9 r
  show 1 ≤ (splitOnB 9 r).length
  omega

/-- C2: the lineage query equals the specified parent-chain walk with rank
aliasing, the no-rank/unnamed filters and closest-ancestor-wins; the
concrete scenario yields {species: X, genus: Y}; non-positive identifiers
return nothing. -/
theorem claim_C2 :
    (∀ (t : taxDump) (taxid : Int), lineage t taxid = lineageSpec t taxid)
    ∧ lineage c2dump 10 = [("species", "X"), ("genus", "Y")]
    ∧ (∀ (t : taxDump) (taxid : Int), taxid ≤ 0 → lineage t taxid = []) := by
  refine ⟨?_, ?_, ?_⟩
  · intro t taxid
    unfold lineage lineageSpec
    by_cases h : taxid ≤ 0
    · simp [h]
    · rw [if_neg h, if_neg h, lineageWalk_eq_foldl]
  · rfl
  · intro t taxid h
    simp [lineage, h]

/-- C2 witness: the non-positive identifier 0 resolves to the empty
mapping. -/
theorem claim_C2_witness : (0 : Int) ≤ 0 ∧ lineage c2dump 0 = [] :=
  ⟨by decide, claim_C2.2.2 c2dump 0 (by decide)⟩

set_option maxRecDepth 20000 in
/-- C8: the lineage walk visits at most 64 nodes for every taxonomy
(cyclic ones included), always returning a (possibly partial) mapping; on
a concrete two-node parent cycle it terminates with both ranks recorded. -/
theorem claim_C8 :
    (∀ (t : taxDump) (taxid : Int), (visitedChain t 64 taxid).length ≤ 64)
    ∧ (∀ (t : taxDump) (taxid : Int),
        lineage t taxid
          = if taxid ≤ 0 then [] else (visitedChain t 64 taxid).foldl (recordStep t) [])
    ∧ lineage c8dump 1 = [("genus", "G"), ("species", "S")] := by
  refine ⟨fun t taxid => visitedChain_length_le t 64 taxid, ?_, ?_⟩
  · intro t taxid
    unfold lineage
    by_cases h : taxid ≤ 0
    · simp [h]
    · rw [if_neg h, if_neg h, lineageWalk_eq_foldl]
  · rfl

/-- C6 counterexample: with two scientific-name rows for identifier 5
(Alpha first, Beta second), `loadNames` resolves 5 to Beta — the later
duplicate row wins, so the claimed first-occurrence-wins is false. -/
theorem claim_C6_counterexample :
    lookupA (5 : Int) (loadNames c6lines) = some "Beta"
    ∧ ("Beta" : String) ≠ "Alpha" := by
  refine ⟨?_, by decide⟩
  rfl

/-- C6 amended: when the names table contains multiple scientific-name rows
for the same identifier, `loadNames` keeps the LAST occurrence (Go map
assignment overwrites): the resolved name is the one of the latest valid
scientific-name row for that identifier. -/
theorem claim_C6_amended : ∀ (lines : List (List Char)) (id : Int),
    lookupA id (loadNames lines) = lastScientificName lines id :=
  loadNames_lookup

/-- C7 counterexample: at stream end with no error and residual results for
sequence numbers 1 and 2, a legal Go map iteration order that visits 2
before 1 delivers the rows with lines [30, 20] — not in ascending sequence
order, so the claimed ascending flush is false. -/
theorem claim_C7_counterexample :
    c7flushed.Perm
        (List.foldl (stepArrival false (fun _ => none)) (initCState 0) c7arrivals).pending
    ∧ (List.foldl (stepArrival false (fun _ => none)) (initCState 0) c7arrivals).err = none
    ∧ (consumeOrdered false (fun _ => none) 0 c7arrivals c7flushed).delivered.map Row.line
        = [30, 20]
    ∧ ¬ List.Pairwise (fun a b => a < b)
        ((consumeOrdered false (fun _ => none) 0 c7arrivals c7flushed).delivered.map
          Row.line) := by
  decide

/-- C7 amended: at stream end with no recorded error, the residual results
are all flushed — each exactly once, its rows in order — but in the Go
map's unspecified iteration order (an arbitrary permutation of the residual
entries), not necessarily ascending by sequence number. -/
theorem claim_C7_amended (onRow : Row → Option Nat) (honRow : ∀ r, onRow r = none)
    (flushed : List (Nat × parseResultM)) (s : CState) (hs : s.err = none)
    (herr : ∀ p ∈ flushed, p.2.err = none) (hperm : flushed.Perm s.pending) :
    (finish false onRow flushed s).delivered
        = s.delivered ++ flushed.flatMap (fun p => p.2.rows)
    ∧ ((finish false onRow flushed s).delivered).Perm
        (s.delivered ++ s.pending.flatMap (fun p => p.2.rows)) := by
  have h1 := finish_noerr onRow honRow flushed s hs herr
  have h2 : (finish false onRow flushed s).delivered
      = s.delivered ++ flushed.flatMap (fun p => p.2.rows) := by
    rw [h1]
  refine ⟨h2, ?_⟩
  rw [h2]
  exact (hperm.flatMap_right _).append_left s.delivered

/-- C7 amended, witness: the two residual results of the counterexample
state are both flushed, their rows a permutation of all residual rows. -/
theorem claim_C7_amended_witness :
    (finish false (fun _ => none) c7flushed c7state).delivered
        = c7state.delivered ++ c7flushed.flatMap (fun p => p.2.rows)
    ∧ ((finish false (fun _ => none) c7flushed c7state).delivered).Perm
        (c7state.delivered ++ c7state.pending.flatMap (fun p => p.2.rows)) :=
  claim_C7_amended (fun _ => none) (fun _ => rfl) c7flushed c7state rfl
    (by decide) (by decide)

/-- C5: with StrictColumns on and ExpectedColumns 0, the first delivered
row's field count becomes the expected count; the first subsequent row
whose count differs makes the pipeline fail with an error carrying that
row's line number and the expected and actual counts, and no further row is
delivered (the violating row itself is not passed to the callback). -/
theorem claim_C5 (bs : List (List Row)) (g : Nat → Nat)
    (onRow : Row → Option Nat) (honRow : ∀ r, onRow r = none)
    (r0 bad : Row) (pre post : List Row)
    (hflat : bs.flatten = r0 :: (pre ++ bad :: post))
    (h0 : r0.fields.length ≠ 0)
    (hpre : ∀ x ∈ pre, x.fields.length = r0.fields.length)
    (hbad : bad.fields.length ≠ r0.fields.length)
    (flushed : List (Nat × parseResultM)) :
    (consumeOrdered true onRow 0 (inorderArrivals bs g) flushed).err
        = some (.strict bad.line r0.fields.length bad.fields.length)
    ∧ (consumeOrdered true onRow 0 (inorderArrivals bs g) flushed).delivered
        = r0 :: pre := by
  have hseqmap : (inorderArrivals bs g).map (fun r => r.seq)
      = List.range' 0 (inorderArrivals bs g).length := by
    unfold inorderArrivals
    rw [List.map_map, List.length_map, List.length_range, ← List.range_eq_range']
    show List.map (fun i => i) (List.range bs.length) = List.range bs.length
    simp
  obtain ⟨e2, heq⟩ :=
    foldInorder true onRow (inorderArrivals bs g) (initCState 0) rfl (fun _ => hseqmap)
  have herrs : ∀ r ∈ inorderArrivals bs g, r.err = none := by
    intro r hr
    obtain ⟨i, _, hmk⟩ := List.mem_map.mp hr
    rw [← hmk]
  have hflatrows : (inorderArrivals bs g).flatMap (fun r => r.rows) = bs.flatten := by
    unfold inorderArrivals
    rw [List.flatMap_map]
    exact flatMap_range_getD bs
  have hff := foldProcess_flat true onRow (inorderArrivals bs g) (initCState 0) rfl herrs
  rw [hflatrows] at hff
  simp only [initCState] at hff
  have hP : processRows true onRow bs.flatten 0
      = (r0 :: pre, r0.fields.length,
          some (.strict bad.line r0.fields.length bad.fields.length)) := by
    rw [hflat]
    exact processRows_strict_first onRow honRow r0 bad pre post h0 hpre hbad
  rw [hP] at hff
  dsimp only at hff
  unfold consumeOrdered
  rw [heq]
  simp only [initCState]
  rw [hff]
  constructor
  · rfl
  · rfl

/-- C5 witness: a two-field first row then a one-field row: the error names
line 2, expected 2, got 1, and only the first row was delivered. -/
theorem claim_C5_witness :
    (consumeOrdered true (fun _ => none) 0 (inorderArrivals c5bs (fun _ => 0)) []).err
        = some (.strict 2 2 1)
    ∧ (consumeOrdered true (fun _ => none) 0 (inorderArrivals c5bs (fun _ => 0)) []).delivered
        = [⟨1, [[], []]⟩] :=
  claim_C5 c5bs (fun _ => 0) (fun _ => none) (fun _ => rfl)
    ⟨1, [[], []]⟩ ⟨2, [[]]⟩ [] [] (by decide) (by decide) (by decide) (by decide) []

/-- C4, evaluated at the failing input: a chunk carved into 3 batches
(refcount initialized to 3) whose send of the second batch is interrupted
by cancellation receives only 2 release calls — one per sent batch from the
consumer plus the single release in the reader's cancellation arm — so the
count ends at 1 and the buffer is returned to the pool 0 times instead of
exactly once; without cancellation all 3 releases occur and the buffer is
returned exactly once. -/
theorem claim_C4_eval :
    chunkReleaseCount 3 1 true = 2
    ∧ runReleases 3 (chunkReleaseCount 3 1 true) = (1, 0)
    ∧ runReleases 3 (chunkReleaseCount 3 3 false) = (0, 1) := by
  decide

end BoldKit
